import Mathlib

/-!
# Verification of the ado-auto-review analysis core

Shallow embedding of `src/utils/adoClient.ts` (the later, authoritative
revision of the file: `reviewPullRequest` and its helper analyzers at
lines 521-966).  JS strings are modelled as `List Char`; the JS regular
expressions used by the source are hand-translated into decidable
scanners with the same backtracking semantics; the JS `Set` is modelled
as an insertion-ordered duplicate-free list; a thrown per-file exception
is modelled as an `Except.error` fetch result.
-/

/-! ## JS string primitives -/

/-- Embedding of "does `n` occur at the start of `h`" (the prefix test
underlying `String.prototype.startsWith` / anchored regex literals). -/
def listPrefix : List Char → List Char → Bool
  | [], _ => true
  | _ :: _, [] => false
  | a :: asl, b :: bs => a == b && listPrefix asl bs

/-- Embedding of JS `String.prototype.includes` (substring test). -/
def jsIncludes (needle : List Char) : List Char → Bool
  | [] => listPrefix needle []
  | c :: t => listPrefix needle (c :: t) || jsIncludes needle t

/-- Embedding of JS `String.prototype.indexOf`: index of the first
occurrence of `needle`, `none` when absent (JS returns `-1`). -/
def jsIndexOf (needle : List Char) : List Char → Option Nat
  | [] => if listPrefix needle [] then some 0 else none
  | c :: t =>
    if listPrefix needle (c :: t) then some 0
    else (jsIndexOf needle t).map (· + 1)

/-- Embedding of JS `String.prototype.replace` with a string pattern:
replaces only the first occurrence; a string with no occurrence is
returned unchanged. -/
def jsReplaceFirst (s pat repl : List Char) : List Char :=
  match s with
  | [] => if listPrefix pat [] then repl else []
  | c :: t =>
    if listPrefix pat (c :: t) then repl ++ (c :: t).drop pat.length
    else c :: jsReplaceFirst t pat repl

/-- Embedding of JS `String.prototype.split('\n')`. -/
def splitNl : List Char → List (List Char)
  | [] => [[]]
  | c :: t =>
    if c == '\n' then [] :: splitNl t
    else
      match splitNl t with
      | [] => [[c]]
      | l :: ls => (c :: l) :: ls

/-- Embedding of JS `Array.prototype.join('\n')`. -/
def joinNl : List (List Char) → List Char
  | [] => []
  | [l] => l
  | l :: ls => l ++ '\n' :: joinNl ls

/-- ASCII-range embedding of JS `String.prototype.toLowerCase` on one
character (the source only compares against the lowercase word "wip"). -/
def toLowerChar (c : Char) : Char :=
  if 'A' ≤ c ∧ c ≤ 'Z' then Char.ofNat (c.toNat + 32) else c

/-! ## Character classes of the source's regex literals -/

/-- JS regex `.`: any character except a line terminator
(U+000A, U+000D, U+2028, U+2029). -/
def dotChar (c : Char) : Bool :=
  !(c == '\n' || c == '\r' || c == Char.ofNat 0x2028 || c == Char.ofNat 0x2029)

/-- JS regex `\w`. -/
def isWordChar (c : Char) : Bool :=
  ('a' ≤ c && c ≤ 'z') || ('A' ≤ c && c ≤ 'Z') || ('0' ≤ c && c ≤ '9') || c == '_'

/-- JS regex `\s` (the whitespace characters that can occur in the
analyzed text; the source never feeds the exotic Unicode spaces). -/
def isJsSpace (c : Char) : Bool :=
  c == ' ' || c == '\t' || c == '\n' || c == '\r' || c == '\x0b' || c == '\x0c' || c == Char.ofNat 0xa0

/-- Character class `[A-Z_]` of the env-var regex. -/
def isEnvChar (c : Char) : Bool := ('A' ≤ c && c ≤ 'Z') || c == '_'

/-- Character class `[a-z0-9-]` of the branch-name regex. -/
def isBranchDescChar (c : Char) : Bool :=
  ('a' ≤ c && c ≤ 'z') || ('0' ≤ c && c ≤ '9') || c == '-'

/-- Character class `[a-z_]` of the short-identifier regex. -/
def isShortNameChar (c : Char) : Bool := ('a' ≤ c && c ≤ 'z') || c == '_'

/-! ## Data model (§3 of the spec / `CodeReviewResult` in the source) -/

/-- Severity levels of a finding. -/
inductive Severity
  | high
  | medium
  | low
deriving DecidableEq, Repr

/-- One element of `CodeReviewResult.suggestions`. -/
structure Suggestion where
  file : List Char
  line : Option Nat
  message : List Char
  severity : Severity
deriving DecidableEq, Repr

/-- `CodeReviewResult.statistics`. -/
structure Statistics where
  filesChanged : Nat
  additions : Nat
  deletions : Nat
  totalChanges : Nat
deriving DecidableEq, Repr

/-- `CodeReviewResult.bestPractices`. -/
structure BestPractices where
  commitMessages : Bool
  branchNaming : Bool
  testCoverage : Bool
  documentationUpdated : Bool
deriving DecidableEq, Repr

/-- `CodeReviewResult` itself. -/
structure Report where
  summary : List Char
  suggestions : List Suggestion
  statistics : Statistics
  bestPractices : BestPractices
deriving DecidableEq, Repr

/-- One entry of `changes.changeEntries`.  `path` is `change.item.path`
(`[]` models a missing/empty path, which the source skips).  `fetch`
models the body of the per-file `try` block: `.error` is a thrown
exception (e.g. `getItemContent` failing), `.ok (content, oldContent)`
is the fetched new content together with the optional previous version
(`none` when `previousVersionBase` is absent or the old fetch failed). -/
structure FileChange where
  path : List Char
  fetch : Except Unit (List Char × Option (List Char))

/-- The data `reviewPullRequest` obtains from the git API for one pull
request: id and title of the PR, `pr.sourceRefName`, the iteration's
change entries, and the commit list (`commit.comment` is optional). -/
structure ChangeSet where
  prId : Nat
  title : List Char
  sourceRefName : List Char
  changeEntries : List FileChange
  commits : List (Option (List Char))

/-! ## Regex scanners

Each JS regex literal of the source is hand-translated.  Quantifiers
whose class is disjoint from the literal that follows them are matched
greedily without backtracking (which is equivalent); the two genuinely
backtracking patterns (the conventional-commit scope and the
conditional-hook pattern) get explicit search functions. -/

/-- Try `lit` at the head of the input (one literal alternative of a
`/a|b|.../g` regex); returns the consumed length. -/
def litTok (lit : List Char) (s : List Char) : Option Nat :=
  if listPrefix lit s then some lit.length else none

/-- Try `lit` followed by `\s*\(` at the head of the input (the
`for\s*\(` / `while\s*\(` alternatives); returns the consumed length. -/
def litSpaceParen (lit : List Char) (s : List Char) : Option Nat :=
  if listPrefix lit s then
    let r := s.drop lit.length
    let ws := r.takeWhile isJsSpace
    match r.drop ws.length with
    | '(' :: _ => some (lit.length + ws.length + 1)
    | _ => none
  else none

/-- First alternative of an ordered alternation that matches at the
current position. -/
def firstTokenMatch : List (List Char → Option Nat) → List Char → Option Nat
  | [], _ => none
  | m :: ms, s =>
    match m s with
    | some n => some n
    | none => firstTokenMatch ms s

/-- Count of global-regex matches: at each position try the matcher; on
a hit advance past it, otherwise advance one character (the fuel is the
input length, so it never runs out). -/
def countMatchesGo (m : List Char → Option Nat) : Nat → List Char → Nat
  | 0, _ => 0
  | _, [] => 0
  | fuel + 1, c :: t =>
    match m (c :: t) with
    | some n => 1 + countMatchesGo m fuel ((c :: t).drop n)
    | none => countMatchesGo m fuel t

/-- Number of matches of a global regex in `s`. -/
def countMatches (m : List Char → Option Nat) (s : List Char) : Nat :=
  countMatchesGo m s.length s

/-- List of matched substrings of a global regex: the matcher returns
the matched text and its length. -/
def scanMatchesGo (m : List Char → Option (List Char × Nat)) :
    Nat → List Char → List (List Char)
  | 0, _ => []
  | _, [] => []
  | fuel + 1, c :: t =>
    match m (c :: t) with
    | some (hit, n) => hit :: scanMatchesGo m fuel ((c :: t).drop n)
    | none => scanMatchesGo m fuel t

/-- All matches (`String.prototype.match` with the `g` flag). -/
def scanMatches (m : List Char → Option (List Char × Nat)) (s : List Char) :
    List (List Char) :=
  scanMatchesGo m s.length s

/-- Existence of a match anywhere (`regex.test` / non-global `match`
truthiness) for a pattern matcher that only looks at the tail from the
current position. -/
def existsPos (p : List Char → Bool) : List Char → Bool
  | [] => p []
  | c :: t => p (c :: t) || existsPos p t

/-- One match attempt of `/function\s+\w+\s*\([^)]*\)\s*\x7b([^\x7d]*)\x7d/g`
at the head of `s`; returns the matched substring and its length. -/
def matchFunctionAt (s : List Char) : Option (List Char × Nat) :=
  if listPrefix "function".toList s then
    let r0 := s.drop 8
    let ws1 := r0.takeWhile isJsSpace
    if ws1.isEmpty then none else
    let r1 := r0.drop ws1.length
    let nm := r1.takeWhile isWordChar
    if nm.isEmpty then none else
    let r2 := r1.drop nm.length
    let r3 := r2.dropWhile isJsSpace
    match r3 with
    | '(' :: r4 =>
      let args := r4.takeWhile (fun c => !(c == ')'))
      match r4.drop args.length with
      | ')' :: r6 =>
        let r7 := r6.dropWhile isJsSpace
        match r7 with
        | '\x7b' :: r8 =>
          let body := r8.takeWhile (fun c => !(c == '\x7d'))
          match r8.drop body.length with
          | '\x7d' :: r10 =>
            let n := s.length - r10.length
            some (s.take n, n)
          | _ => none
        | _ => none
      | _ => none
    | _ => none
  else none

/-- `content.match(/function\s+\w+\s*\([^)]*\)\s*\x7b([^\x7d]*)\x7d/g)`. -/
def functionBlocks (s : List Char) : List (List Char) :=
  scanMatches matchFunctionAt s

/-- Ordered alternation of `/if|while|for|&&|\|\||switch|catch/g`. -/
def complexityTokenMatcher : List Char → Option Nat :=
  firstTokenMatch [litTok "if".toList, litTok "while".toList, litTok "for".toList,
    litTok "&&".toList, litTok "||".toList, litTok "switch".toList, litTok "catch".toList]

/-- Ordered alternation of `/for\s*\(|while\s*\(|forEach|map|filter|reduce/g`. -/
def loopTokenMatcher : List Char → Option Nat :=
  firstTokenMatch [litSpaceParen "for".toList, litSpaceParen "while".toList,
    litTok "forEach".toList, litTok "map".toList, litTok "filter".toList,
    litTok "reduce".toList]

/-- One match attempt of `/\.then\(|\bcallback\(|\basync\s+/g`; `prev` is
the character before the current position (for the `\b` boundaries). -/
def nestTokenAt (prev : Option Char) (s : List Char) : Option Nat :=
  if listPrefix ".then(".toList s then some 6
  else
    let bnd := match prev with
      | none => true
      | some p => !isWordChar p
    if bnd && listPrefix "callback(".toList s then some 9
    else if bnd && listPrefix "async".toList s then
      let ws := (s.drop 5).takeWhile isJsSpace
      if ws.isEmpty then none else some (5 + ws.length)
    else none

/-- Count of matches of `/\.then\(|\bcallback\(|\basync\s+/g`, threading
the previous character through the scan. -/
def countNestGo : Nat → Option Char → List Char → Nat
  | 0, _, _ => 0
  | _, _, [] => 0
  | fuel + 1, prev, c :: t =>
    match nestTokenAt prev (c :: t) with
    | some n =>
      let consumed := (c :: t).take n
      1 + countNestGo fuel (some (consumed.getLastD ' ')) ((c :: t).drop n)
    | none => countNestGo fuel (some c) t

/-- `(content.match(/\.then\(|\bcallback\(|\basync\s+/g) || []).length`. -/
def countNesting (s : List Char) : Nat :=
  countNestGo s.length none s

/-- One position of `/innerHTML\s*=/`. -/
def innerHtmlAt (s : List Char) : Bool :=
  listPrefix "innerHTML".toList s &&
    (match (s.drop 9).dropWhile isJsSpace with
     | '=' :: _ => true
     | _ => false)

/-- `content.match(/innerHTML\s*=/)` truthiness. -/
def innerHtmlTest (s : List Char) : Bool := existsPos innerHtmlAt s

/-- One match attempt of `/process\.env\.[A-Z_]+/g`: the whole match
(`process.env.NAME`) and its length. -/
def envMatchAt (s : List Char) : Option (List Char × Nat) :=
  if listPrefix "process.env.".toList s then
    let run := (s.drop 12).takeWhile isEnvChar
    if run.isEmpty then none
    else some ("process.env.".toList ++ run, 12 + run.length)
  else none

/-- `content.match(/process\.env\.([A-Z_]+)/g) || []` (the source keeps
the full matched text, not the capture group). -/
def envVarMatches (s : List Char) : List (List Char) := scanMatches envMatchAt s

/-- Lookahead `\s*:` used negatively by the short-identifier regex. -/
def lookaheadColon (s : List Char) : Bool :=
  match s.dropWhile isJsSpace with
  | ':' :: _ => true
  | _ => false

/-- One position of `/\b[a-z_]\x7b1,2\x7d\b(?!\s*:)/`: a 1- or 2-character
lowercase/underscore word with boundaries on both sides, not followed by
an optionally spaced colon.  Backtracking tries the 2-character form
first, then the 1-character form; existence is their disjunction. -/
def shortNameAt (prev : Option Char) (s : List Char) : Bool :=
  let bnd := match prev with
    | none => true
    | some p => !isWordChar p
  bnd &&
    (match s with
     | c1 :: c2 :: rest =>
       (isShortNameChar c1 && isShortNameChar c2 &&
         (match rest with | [] => true | r :: _ => !isWordChar r) &&
         !lookaheadColon rest) ||
       (isShortNameChar c1 && !isWordChar c2 && !lookaheadColon (c2 :: rest))
     | [c1] => isShortNameChar c1 && !lookaheadColon []
     | [] => false)

/-- Scan for the short-identifier pattern, threading the previous
character. -/
def shortNameScan : Option Char → List Char → Bool
  | _, [] => false
  | prev, c :: t => shortNameAt prev (c :: t) || shortNameScan (some c) t

/-- One match attempt of `/use[A-Z]\w+/g`. -/
def hookMatchAt (s : List Char) : Option (List Char × Nat) :=
  if listPrefix "use".toList s then
    match s.drop 3 with
    | u :: rest =>
      if 'A' ≤ u && u ≤ 'Z' then
        let run := rest.takeWhile isWordChar
        if run.isEmpty then none
        else some ("use".toList ++ u :: run, 4 + run.length)
      else none
    | [] => none
  else none

/-- `content.match(/use[A-Z]\w+/g) || []`. -/
def hookMatches (s : List Char) : List (List Char) := scanMatches hookMatchAt s

/-- `hook.match(/use\w+/)` truthiness. -/
def useWordTest (s : List Char) : Bool :=
  existsPos (fun r => listPrefix "use".toList r &&
    (match r.drop 3 with
     | c :: _ => isWordChar c
     | [] => false)) s

/-- Tail search for `[^\x7d]*use[A-Z]\w+` (body of the conditional-hook
pattern). -/
def condHookBody : List Char → Bool
  | [] => false
  | c :: t =>
    (listPrefix "use".toList (c :: t) &&
      (match (c :: t).drop 3 with
       | u :: w :: _ => ('A' ≤ u && u ≤ 'Z') && isWordChar w
       | _ => false)) ||
    (!(c == '\x7d') && condHookBody t)

/-- After the closing parenthesis: `\s*\x7b` then the body search. -/
def condHookAfterParen (s : List Char) : Bool :=
  match s.dropWhile isJsSpace with
  | '\x7b' :: t => condHookBody t
  | _ => false

/-- Backtracking search for `.*\)` followed by the rest of the pattern:
a `)` may close the group or be consumed by `.*`. -/
def condHookParen : List Char → Bool
  | [] => false
  | c :: t => (c == ')' && condHookAfterParen t) || (dotChar c && condHookParen t)

/-- One position of `/if\s*\(.*\)\s*\x7b[^\x7d]*use[A-Z]\w+/`. -/
def condHookAt (s : List Char) : Bool :=
  listPrefix "if".toList s &&
    (match (s.drop 2).dropWhile isJsSpace with
     | '(' :: t => condHookParen t
     | _ => false)

/-- `content.match(/if\s*\(.*\)\s*\x7b[^\x7d]*use[A-Z]\w+/)` truthiness. -/
def condHookTest (s : List Char) : Bool := existsPos condHookAt s

/-- One match attempt of
`/useEffect\(\s*\(\)\s*=>\s*\x7b[^\x7d]*\x7d,\s*\[(.*?)\]/g`.  Every
quantifier before the dependency group is determined by its following
literal; the lazy `(.*?)\]` stops at the first `]` reachable without a
line terminator. -/
def effectMatchAt (s : List Char) : Option (List Char × Nat) :=
  if listPrefix "useEffect(".toList s then
    let r1 := (s.drop 10).dropWhile isJsSpace
    match r1 with
    | '(' :: ')' :: r2 =>
      let r3 := r2.dropWhile isJsSpace
      match r3 with
      | '=' :: '>' :: r4 =>
        let r5 := r4.dropWhile isJsSpace
        match r5 with
        | '\x7b' :: r6 =>
          let body := r6.takeWhile (fun c => !(c == '\x7d'))
          match r6.drop body.length with
          | '\x7d' :: ',' :: r7 =>
            let r8 := r7.dropWhile isJsSpace
            match r8 with
            | '[' :: r9 =>
              let dep := r9.takeWhile (fun c => dotChar c && !(c == ']'))
              match r9.drop dep.length with
              | ']' :: rest =>
                let n := s.length - rest.length
                some (s.take n, n)
              | _ => none
            | _ => none
          | _ => none
        | _ => none
      | _ => none
    | _ => none
  else none

/-- `content.match(/useEffect\(...\[(.*?)\]/g) || []`. -/
def effectMatches (s : List Char) : List (List Char) := scanMatches effectMatchAt s

/-! ## Pattern detectors (`analyzeCodeComplexity` .. `analyzeDiff`) -/

/-- Interpolated message of the cyclomatic-complexity finding. -/
def complexityMsg (complexity : Nat) : List Char :=
  "High cyclomatic complexity (".toList ++ (Nat.repr complexity).toList ++
    "). Consider breaking down the function.".toList

/-- Message of the async-nesting finding. -/
def nestingMsg : List Char :=
  "Deep nesting of async operations detected. Consider using async/await or breaking down the chain.".toList

/-- `analyzeCodeComplexity` of the source: one high finding per function
block with more than 10 branching tokens, then one medium finding when
the file has more than 3 async-chain markers. -/
def analyzeCodeComplexity (content : List Char) : List (List Char × Severity) :=
  let functionMatches := functionBlocks content
  let issues := functionMatches.foldl (fun acc func =>
    let complexity := countMatches complexityTokenMatcher func
    if complexity > 10 then acc ++ [(complexityMsg complexity, Severity.high)]
    else acc) []
  let nestingLevel := countNesting content
  if nestingLevel > 3 then issues ++ [(nestingMsg, Severity.medium)] else issues

def evalMsg : List Char := "Usage of eval() detected - potential security risk".toList

def innerHtmlMsg : List Char := "Direct innerHTML manipulation detected - XSS risk".toList

def sensitivePre : List Char := "Sensitive environment variable ".toList

def sensitiveSuf : List Char := " might be exposed".toList

/-- Interpolated message of the sensitive-env-var finding; `envVar` is
the full matched text `process.env.NAME`. -/
def sensitiveMsg (envVar : List Char) : List Char := sensitivePre ++ envVar ++ sensitiveSuf

/-- `Set.prototype.add`: a JS `Set` keeps insertion order and ignores
re-insertions. -/
def addIssue (issues : List (List Char)) (m : List Char) : List (List Char) :=
  if m ∈ issues then issues else issues ++ [m]

/-- `checkSecurityIssues` of the source (its unused `filePath` parameter
is dropped); returns the updated `securityIssues` set. -/
def checkSecurityIssues (content : List Char) (issues : List (List Char)) :
    List (List Char) :=
  let i1 := if jsIncludes "eval(".toList content then addIssue issues evalMsg else issues
  let i2 := if innerHtmlTest content then addIssue i1 innerHtmlMsg else i1
  (envVarMatches content).foldl (fun acc envVar =>
    if jsIncludes "KEY".toList envVar || jsIncludes "SECRET".toList envVar ||
        jsIncludes "PASSWORD".toList envVar then
      addIssue acc (sensitiveMsg envVar)
    else acc) i2

def protoMsg : List Char :=
  "Prototype modification detected - can cause performance issues".toList

def loopsMsg : List Char :=
  "Multiple nested loops or array operations detected - potential performance bottleneck".toList

def domMsg : List Char :=
  "Consider using more specific selectors or caching DOM queries".toList

/-- `checkPerformanceIssues` of the source; returns the updated
`performanceIssues` set. -/
def checkPerformanceIssues (content : List Char) (issues : List (List Char)) :
    List (List Char) :=
  let i1 := if jsIncludes "Array.prototype".toList content ||
      jsIncludes "Object.prototype".toList content then addIssue issues protoMsg
    else issues
  let hasManyLoops := countMatches loopTokenMatcher content > 5
  let i2 := if hasManyLoops then addIssue i1 loopsMsg else i1
  if jsIncludes "document.querySelectorAll".toList content then addIssue i2 domMsg else i2

def unclearNamesMsg : List Char :=
  "Found variables with unclear names. Consider using more descriptive names.".toList

def varMsg : List Char :=
  "Use of var detected. Prefer const or let for better scoping.".toList

/-- `analyzeCodeStyle` of the source. -/
def analyzeCodeStyle (content : List Char) : List (List Char × Severity) :=
  let issues := if shortNameScan none content then [(unclearNamesMsg, Severity.medium)] else []
  if jsIncludes "var ".toList content then issues ++ [(varMsg, Severity.medium)] else issues

def condHooksMsg : List Char := "Hooks should not be called inside conditions".toList

def emptyDepsMsg : List Char :=
  "Empty dependency array in useEffect - verify if this is intended".toList

/-- `analyzeReactCode` of the source. -/
def analyzeReactCode (content : List Char) : List (List Char × Severity) :=
  let issues :=
    if jsIncludes "useState".toList content || jsIncludes "useEffect".toList content then
      let hookCalls := hookMatches content
      if hookCalls.any (fun hook => useWordTest hook) then
        if condHookTest content then [(condHooksMsg, Severity.high)] else []
      else []
    else []
  (effectMatches content).foldl (fun acc effect =>
    if jsIncludes "[]".toList effect then acc ++ [(emptyDepsMsg, Severity.medium)]
    else acc) issues

def minBlockSize : Nat := 5

/-- Loop body of `findMovedBlocks`: at line index `i`, join the 5-line
window, look it up in the joined new content, and when the found
character offset differs from the line index by more than the block
size count it and jump past the block (`i += minBlockSize - 1` plus the
loop increment).  The structural `fuel` argument only bounds the number
of iterations; since `i` grows by at least 1 per iteration, any fuel of
at least `bound - i` gives the JS loop's semantics. -/
def fmbGo (oldLines : List (List Char)) (joined : List Char) (bound : Nat) :
    Nat → Nat → Nat
  | 0, _ => 0
  | fuel + 1, i =>
    if i < bound then
      match jsIndexOf (joinNl ((oldLines.drop i).take minBlockSize)) joined with
      | some newIndex =>
        if Int.natAbs ((newIndex : Int) - (i : Int)) > minBlockSize then
          1 + fmbGo oldLines joined bound fuel (i + minBlockSize)
        else fmbGo oldLines joined bound fuel (i + 1)
      | none => fmbGo oldLines joined bound fuel (i + 1)
    else 0

/-- `findMovedBlocks` of the source.  The JS loop bound
`oldLines.length - minBlockSize` is negative for short inputs and the
loop body never runs; Nat truncation gives the same behavior. -/
def findMovedBlocks (oldLines newLines : List (List Char)) : Nat :=
  fmbGo oldLines (joinNl newLines) (oldLines.length - minBlockSize)
    (oldLines.length - minBlockSize) 0

def movedBlocksMsg : List Char :=
  "Large blocks of code appear to be moved. Consider extracting into shared functions/components.".toList

/-- `analyzeDiff` of the source. -/
def analyzeDiff (oldContent newContent : List Char) : List (List Char × Severity) :=
  let oldLines := splitNl oldContent
  let newLines := splitNl newContent
  let movedBlocks := findMovedBlocks oldLines newLines
  if movedBlocks > 3 then [(movedBlocksMsg, Severity.medium)] else []

/-! ## Commit, branch and documentation policy checks -/

/-- The seven conventional-commit types, in the regex's alternation
order. -/
def convTypes : List (List Char) :=
  ["feat".toList, "fix".toList, "docs".toList, "style".toList,
    "refactor".toList, "test".toList, "chore".toList]

/-- The suffix `: .` of the commit regex: a colon, a space, and at least
one non-line-terminator character (`.\x7b1,50\x7d` needs one and the
pattern is unanchored on the right, so one suffices for a match). -/
def colonSpaceRest : List Char → Bool
  | c1 :: c2 :: c3 :: _ => c1 == ':' && c2 == ' ' && dotChar c3
  | _ => false

/-- Backtracking search for the rest of `\(.+\)` after at least one
scope character: each `)` may close the scope (the rest must then match)
or be consumed by `.+`. -/
def scopeAfterOne : List Char → Bool
  | [] => false
  | c :: t => (c == ')' && colonSpaceRest t) || (dotChar c && scopeAfterOne t)

/-- After the commit type: either `: .` directly, or a parenthesized
scope `\(.+\)` followed by `: .`. -/
def convAfterType (r : List Char) : Bool :=
  colonSpaceRest r ||
    (match r with
     | a :: b :: r2 => a == '(' && dotChar b && scopeAfterOne r2
     | _ => false)

/-- `.test` of `/^(feat|fix|docs|style|refactor|test|chore)(\(.+\))?: .\x7b1,50\x7d/`. -/
def conventionalTest (msg : List Char) : Bool :=
  convTypes.any fun t => listPrefix t msg && convAfterType (msg.drop t.length)

/-- `analyzeCommitMessages` of the source: every commit's
`comment || ''` must match the conventional pattern, have length at
least 10 and not contain "wip" case-insensitively. -/
def analyzeCommitMessages (commits : List (Option (List Char))) : Bool :=
  commits.all fun commit =>
    let message := commit.getD []
    let hasConventionalFormat := conventionalTest message
    let isDescriptive := decide (10 ≤ message.length) &&
      !jsIncludes "wip".toList (message.map toLowerChar)
    hasConventionalFormat && isDescriptive

/-- The four branch types of `/^(feature|bugfix|hotfix|release)\/[a-z0-9-]+$/`. -/
def branchTypes : List (List Char) :=
  ["feature".toList, "bugfix".toList, "hotfix".toList, "release".toList]

/-- `.test` of the branch regex (anchored on both sides). -/
def branchPatternTest (branchName : List Char) : Bool :=
  branchTypes.any fun t =>
    listPrefix (t ++ ['/']) branchName &&
      (let d := branchName.drop (t.length + 1)
       !d.isEmpty && d.all isBranchDescChar)

/-- Return value of `analyzeBranchNaming`. -/
structure BranchAnalysis where
  isValid : Bool
  message : List Char
deriving DecidableEq, Repr

/-- `analyzeBranchNaming` of the source. -/
def analyzeBranchNaming (branchName : List Char) : BranchAnalysis :=
  let isValid := branchPatternTest branchName
  { isValid := isValid
    message := if isValid then "Branch naming follows conventions".toList
      else "Branch name should follow pattern: type/description".toList }

/-- Return value of `analyzeDocumentation`. -/
structure DocAnalysis where
  hasUpdates : Bool
  message : List Char
deriving DecidableEq, Repr

/-- `analyzeDocumentation` of the source. -/
def analyzeDocumentation (changes : List FileChange) : DocAnalysis :=
  let docFiles := changes.filter fun change =>
    jsIncludes "README".toList change.path || jsIncludes "docs/".toList change.path ||
      List.isSuffixOf ".md".toList change.path
  { hasUpdates := decide (docFiles.length > 0)
    message := if docFiles.length > 0 then "Documentation has been updated".toList
      else "Consider updating documentation".toList }

/-- `severityScore` of the source (the `|| 0` default is unreachable:
the lookup object covers all three severities). -/
def severityScore : Severity → Nat
  | Severity.high => 3
  | Severity.medium => 2
  | Severity.low => 1

/-! ## Stable severity sort

The source sorts with `suggestions.sort((a, b) => severityScore(b) -
severityScore(a))`.  ECMAScript defines `Array.prototype.sort` to be
stable, and for a consistent comparator the stable sorted permutation
is unique, so any stable sort realizes it; a stable insertion sort is
used here. -/

/-- Insert `x` before the first element whose severity score is not
larger — later-inserted elements of equal score stay behind earlier
ones, which is exactly stability. -/
def insertBySeverity (x : Suggestion) : List Suggestion → List Suggestion
  | [] => [x]
  | y :: ys =>
    if severityScore y.severity ≤ severityScore x.severity then x :: y :: ys
    else y :: insertBySeverity x ys

/-- Stable sort of the suggestion list, descending by severity score. -/
def sortSuggestions : List Suggestion → List Suggestion
  | [] => []
  | x :: xs => insertBySeverity x (sortSuggestions xs)

/-! ## Aggregator (`reviewPullRequest`, lines 521-747 of the source) -/

/-- Mutable per-run accumulation: the `statistics` counters, the
`suggestions` array, and the two JS `Set`s. -/
structure AccState where
  additions : Nat
  deletions : Nat
  suggestions : List Suggestion
  securityIssues : List (List Char)
  performanceIssues : List (List Char)

def initAccState : AccState :=
  { additions := 0, deletions := 0, suggestions := [],
    securityIssues := [], performanceIssues := [] }

/-- `filePath.endsWith('.ts') || filePath.endsWith('.tsx')`. -/
def tsOrTsx (path : List Char) : Bool :=
  List.isSuffixOf ".ts".toList path || List.isSuffixOf ".tsx".toList path

def noTestMsg : List Char :=
  "No corresponding test file found for this changed file".toList

/-- The `hasCorrespondingTest` lookup: some entry's path contains one of
the three replaced forms of `filePath` (note that `replace` leaves the
path unchanged when its pattern does not occur). -/
def hasCorrespondingTest (allEntries : List FileChange) (filePath : List Char) : Bool :=
  allEntries.any fun entry =>
    jsIncludes (jsReplaceFirst filePath "src/".toList "test/".toList) entry.path ||
    jsIncludes (jsReplaceFirst filePath ".ts".toList ".test.ts".toList) entry.path ||
    jsIncludes (jsReplaceFirst filePath ".tsx".toList ".test.tsx".toList) entry.path

/-- The test-coverage block (source lines 677-692): gate on a `src/`
path that is not itself a test/spec file, then emit the high finding iff
the lookup fails. -/
def coverageSuggestions (allEntries : List FileChange) (filePath : List Char) :
    List Suggestion :=
  if jsIncludes "src/".toList filePath && !jsIncludes ".test.".toList filePath &&
      !jsIncludes ".spec.".toList filePath then
    if hasCorrespondingTest allEntries filePath then []
    else [{ file := filePath, line := none, message := noTestMsg, severity := Severity.high }]
  else []

/-- Attach the file path to a detector finding (the source's
`issues.map(issue => ({ file: filePath, ...issue }))`). -/
def mkSuggestion (filePath : List Char) (issue : List Char × Severity) : Suggestion :=
  { file := filePath, line := none, message := issue.1, severity := issue.2 }

/-- All suggestions the loop body pushes for one analyzed file, in
source order: complexity, style, React (only `.tsx`), diff (only when
the old content string is truthy), then the test-coverage finding. -/
def perFileSuggestions (allEntries : List FileChange) (filePath content : List Char)
    (oldContent : Option (List Char)) : List Suggestion :=
  let tsIssues :=
    if tsOrTsx filePath then
      (analyzeCodeComplexity content).map (mkSuggestion filePath) ++
      (analyzeCodeStyle content).map (mkSuggestion filePath) ++
      (if List.isSuffixOf ".tsx".toList filePath then
        (analyzeReactCode content).map (mkSuggestion filePath)
      else []) ++
      (match oldContent with
       | some o => if o.isEmpty then [] else (analyzeDiff o content).map (mkSuggestion filePath)
       | none => [])
    else []
  tsIssues ++ coverageSuggestions allEntries filePath

/-- `statistics.additions += newLines.length` for one analyzed file. -/
def entryAddition (content : List Char) : Nat := (splitNl content).length

/-- `statistics.deletions += Math.max(0, oldLines.length -
newLines.length)` when the old content buffer exists, else no change. -/
def entryDeletion (content : List Char) : Option (List Char) → Nat
  | some o =>
    Int.toNat (max 0 (((splitNl o).length : Int) - ((splitNl content).length : Int)))
  | none => 0

/-- The loop body for one change entry.  An empty path is skipped
(`if (filePath && change.item)`), and a thrown fetch/analysis exception
is caught and contributes nothing (`catch` at lines 694-696). -/
def processEntry (allEntries : List FileChange) (st : AccState) (ch : FileChange) :
    AccState :=
  if ch.path.isEmpty then st
  else
    match ch.fetch with
    | Except.error _ => st
    | Except.ok (content, oldContent) =>
      { additions := st.additions + entryAddition content
        deletions := st.deletions + entryDeletion content oldContent
        suggestions := st.suggestions ++ perFileSuggestions allEntries ch.path content oldContent
        securityIssues :=
          if tsOrTsx ch.path then checkSecurityIssues content st.securityIssues
          else st.securityIssues
        performanceIssues :=
          if tsOrTsx ch.path then checkPerformanceIssues content st.performanceIssues
          else st.performanceIssues }

/-- The whole per-file loop: fold the loop body over the entries to be
analyzed; the test-coverage lookup always consults the full entry list. -/
def analysisState (toAnalyze allEntries : List FileChange) : AccState :=
  toAnalyze.foldl (processEntry allEntries) initAccState

def multipleFiles : List Char := "multiple files".toList

/-- A deduplicated security issue appended as a change-set-wide high
finding (source lines 704-710). -/
def wideSecuritySuggestion (issue : List Char) : Suggestion :=
  { file := multipleFiles, line := none, message := issue, severity := Severity.high }

/-- A deduplicated performance issue appended as a change-set-wide
medium finding (source lines 712-718). -/
def widePerformanceSuggestion (issue : List Char) : Suggestion :=
  { file := multipleFiles, line := none, message := issue, severity := Severity.medium }

/-- The suggestion list right before sorting: per-file findings, then
the deduplicated security set as high change-set-wide findings, then
the performance set as medium ones (source lines 704-718). -/
def rawSuggestions (toAnalyze allEntries : List FileChange) : List Suggestion :=
  let st := analysisState toAnalyze allEntries
  st.suggestions ++
    st.securityIssues.map wideSecuritySuggestion ++
    st.performanceIssues.map widePerformanceSuggestion

/-- `generatePRSummary` of the source. -/
def generatePRSummary (prId : Nat) (title : List Char) (statistics : Statistics)
    (suggestions : List Suggestion) : List Char :=
  let highSeverityCount := (suggestions.filter fun s => s.severity == Severity.high).length
  let mediumSeverityCount := (suggestions.filter fun s => s.severity == Severity.medium).length
  "Review of PR #".toList ++ (Nat.repr prId).toList ++ ": ".toList ++ title ++
    "\nFound ".toList ++ (Nat.repr highSeverityCount).toList ++
    " high-severity and ".toList ++ (Nat.repr mediumSeverityCount).toList ++
    " medium-severity issues.\nChanged ".toList ++ (Nat.repr statistics.filesChanged).toList ++
    " files with +".toList ++ (Nat.repr statistics.additions).toList ++
    "/-".toList ++ (Nat.repr statistics.deletions).toList ++ " lines.".toList

/-- Report construction, parameterized by which entries the loop
analyzes (always the full entry list in `reviewPullRequest`; the
parameter isolates one entry's contribution for the error-handling
property).  `filesChanged` counts all change entries, and `testCoverage`
is derived from the final suggestion list, whose in-place sort has
already happened when `bestPractices` is evaluated. -/
def reviewPullRequestAux (toAnalyze : List FileChange) (cs : ChangeSet) : Report :=
  let st := analysisState toAnalyze cs.changeEntries
  let statistics : Statistics :=
    { filesChanged := cs.changeEntries.length
      additions := st.additions
      deletions := st.deletions
      totalChanges := st.additions + st.deletions }
  let suggestions := rawSuggestions toAnalyze cs.changeEntries
  let sorted := sortSuggestions suggestions
  let sourceBranch := jsReplaceFirst cs.sourceRefName "refs/heads/".toList []
  { summary := generatePRSummary cs.prId cs.title statistics suggestions
    suggestions := sorted
    statistics := statistics
    bestPractices :=
      { commitMessages := analyzeCommitMessages cs.commits
        branchNaming := (analyzeBranchNaming sourceBranch).isValid
        testCoverage := !sorted.any fun s => jsIncludes "No corresponding test".toList s.message
        documentationUpdated := (analyzeDocumentation cs.changeEntries).hasUpdates } }

/-- The analysis core of `reviewPullRequest` (the async fetching that
surrounds it is the out-of-scope change-set provider). -/
def reviewPullRequest (cs : ChangeSet) : Report :=
  reviewPullRequestAux cs.changeEntries cs

/-! ## Concrete inputs used by the example-level theorems -/

/-- Twenty distinct one-character lines (identical old and new content
for the moved-block counterexample). -/
def lettersLines : List (List Char) :=
  ["a".toList, "b".toList, "c".toList, "d".toList, "e".toList, "f".toList, "g".toList,
   "h".toList, "i".toList, "j".toList, "k".toList, "l".toList, "m".toList, "n".toList,
   "o".toList, "p".toList, "q".toList, "r".toList, "s".toList, "t".toList]

/-- Twenty old lines whose first five-line block is relocated to lines
10-14 of the new content while the other old lines disappear. -/
def movedOld : List (List Char) :=
  ["b0".toList, "b1".toList, "b2".toList, "b3".toList, "b4".toList,
   "J5".toList, "J6".toList, "J7".toList, "J8".toList, "J9".toList,
   "J10".toList, "J11".toList, "J12".toList, "J13".toList, "J14".toList,
   "J15".toList, "J16".toList, "J17".toList, "J18".toList, "J19".toList]

/-- New content for the relocation example: ten fresh lines, then the
moved five-line block. -/
def movedNew : List (List Char) :=
  ["x1".toList, "x2".toList, "x3".toList, "x4".toList, "x5".toList,
   "x6".toList, "x7".toList, "x8".toList, "x9".toList, "x10".toList,
   "b0".toList, "b1".toList, "b2".toList, "b3".toList, "b4".toList]

/-- A change-set with one added 301-line `.ts` file under `src/` and no
test file anywhere. -/
def csC2 : ChangeSet :=
  { prId := 7, title := "add feature".toList,
    sourceRefName := "refs/heads/feature/big-file".toList,
    changeEntries := [{ path := "src/newFeature.ts".toList,
                        fetch := Except.ok (List.replicate 300 '\n', none) }],
    commits := [some "feat: add the new feature".toList] }

/-- A change-set whose source branch name contains `refs/heads/` in the
middle rather than as a leading prefix. -/
def csBranch : ChangeSet :=
  { prId := 9, title := "branch".toList,
    sourceRefName := "feature/refs/heads/a".toList,
    changeEntries := [], commits := [] }

/-- A change-set with two distinct `.ts` files whose contents both
reference the same sensitive environment variable. -/
def csC7 : ChangeSet :=
  { prId := 3, title := "env".toList,
    sourceRefName := "refs/heads/feature/env".toList,
    changeEntries :=
      [{ path := "a.ts".toList, fetch := Except.ok ("process.env.API_KEY".toList, none) },
       { path := "b.ts".toList, fetch := Except.ok ("process.env.API_KEY".toList, none) }],
    commits := [] }

/-- A change-set with one entry whose per-file analysis throws and one
healthy entry (for the error-isolation witness). -/
def csErr : ChangeSet :=
  { prId := 4, title := "err".toList,
    sourceRefName := "refs/heads/bugfix/io".toList,
    changeEntries :=
      [{ path := "good.ts".toList, fetch := Except.ok ("let value = 1;".toList, none) },
       { path := "bad.ts".toList, fetch := Except.error () }],
    commits := [] }

/-- A change-set with an empty commit list (for the vacuous
commit-message verdict). -/
def csNoCommits : ChangeSet :=
  { prId := 5, title := "empty".toList,
    sourceRefName := "refs/heads/feature/none".toList,
    changeEntries := [], commits := [] }

/-- A change-set with one added `.tsx` component file and no test file
(the coverage finding does fire for `.tsx` paths). -/
def csTsx : ChangeSet :=
  { prId := 8, title := "tsx".toList,
    sourceRefName := "feature/x".toList,
    changeEntries := [{ path := "src/comp.tsx".toList, fetch := Except.ok ([], none) }],
    commits := [] }

/-- Low-severity example finding for the stable-sort example. -/
def exLow : Suggestion :=
  { file := "f1".toList, line := none, message := "m-low".toList, severity := Severity.low }

/-- First high-severity example finding. -/
def exHigh1 : Suggestion :=
  { file := "f2".toList, line := none, message := "m-high-1".toList, severity := Severity.high }

/-- Medium-severity example finding. -/
def exMed : Suggestion :=
  { file := "f3".toList, line := none, message := "m-med".toList, severity := Severity.medium }

/-- Second high-severity example finding. -/
def exHigh2 : Suggestion :=
  { file := "f4".toList, line := none, message := "m-high-2".toList, severity := Severity.high }

/-- The descending-severity relation of the sort (`a` no less severe
than `b`). -/
def severityGE (a b : Suggestion) : Prop :=
  severityScore b.severity ≤ severityScore a.severity

/-- Spec-side reading of C4's "leading `refs/heads/` prefix stripped".
Modelled from the spec: the spec's words ask for removing the prefix
only when the ref name starts with it. -/
def specStripLeading (refName : List Char) : List Char :=
  if listPrefix "refs/heads/".toList refName then refName.drop 11 else refName

/-- Spec-side branch-name predicate: `type/description` with a
known type and a nonempty lowercase-alphanumeric-hyphen description. -/
def SpecBranchName (s : List Char) : Prop :=
  ∃ t ∈ branchTypes, ∃ d : List Char,
    s = t ++ '/' :: d ∧ d ≠ [] ∧ ∀ c ∈ d, isBranchDescChar c = true

/-- Spec-side tail of the commit pattern: after `: ` come between 1 and
50 further non-line-terminator characters (the regex is unanchored on
the right, so the rest of the message may continue after them). -/
def SpecCommitTail (rest : List Char) : Prop :=
  ∃ k, 1 ≤ k ∧ k ≤ 50 ∧ ∃ taken rest2 : List Char,
    rest = taken ++ rest2 ∧ taken.length = k ∧ ∀ c ∈ taken, dotChar c = true

/-- Spec-side conventional-commit predicate: a known type, an optional
parenthesized nonempty scope, then `: ` and 1-50 further characters. -/
def SpecConventional (msg : List Char) : Prop :=
  ∃ t ∈ convTypes,
    (∃ rest, msg = t ++ ':' :: ' ' :: rest ∧ SpecCommitTail rest) ∨
    (∃ scope rest, scope ≠ [] ∧ (∀ c ∈ scope, dotChar c = true) ∧
      msg = t ++ '(' :: (scope ++ ')' :: ':' :: ' ' :: rest) ∧ SpecCommitTail rest)

/-- Spec-side "contains the substring wip in any letter case". -/
def SpecContainsWip (msg : List Char) : Prop :=
  ∃ l w r : List Char, msg = l ++ w ++ r ∧ w.map toLowerChar = "wip".toList

/-- Spec-side per-commit requirement of C3. -/
def SpecGoodCommit (message : List Char) : Prop :=
  SpecConventional message ∧ 10 ≤ message.length ∧ ¬SpecContainsWip message

/-- The messages the security set can ever contain: the two fixed
messages and the sensitive-env-var family. -/
def SecShape (m : List Char) : Prop :=
  m = evalMsg ∨ m = innerHtmlMsg ∨ ∃ v, m = sensitivePre ++ v ++ sensitiveSuf

/-- The messages the performance set can ever contain. -/
def PerfShape (m : List Char) : Prop :=
  m = protoMsg ∨ m = loopsMsg ∨ m = domMsg

/-- Entries whose per-file analysis actually ran: nonempty path and a
fetch that did not throw. -/
def analyzedEntries (entries : List FileChange) : List (List Char × Option (List Char)) :=
  entries.filterMap fun e =>
    if e.path.isEmpty then none
    else match e.fetch with
      | Except.ok d => some d
      | Except.error _ => none

/-- The analyzed entries of a change-set. -/
def analyzedData (cs : ChangeSet) : List (List Char × Option (List Char)) :=
  analyzedEntries cs.changeEntries

/-! ## Correctness of the string primitives -/

theorem listPrefix_iff (n h : List Char) :
    listPrefix n h = true ↔ ∃ r, h = n ++ r := by
  induction n generalizing h with
  | nil => simp [listPrefix]
  | cons a asl ih =>
    cases h with
    | nil => simp [listPrefix]
    | cons b bs =>
      simp only [listPrefix, Bool.and_eq_true, beq_iff_eq, ih, List.cons_append,
        List.cons.injEq]
      constructor
      · rintro ⟨rfl, r, rfl⟩; exact ⟨r, rfl, rfl⟩
      · rintro ⟨r, rfl, rfl⟩; exact ⟨rfl, r, rfl⟩

theorem jsIncludes_iff (n h : List Char) :
    jsIncludes n h = true ↔ ∃ l r, h = l ++ n ++ r := by
  induction h with
  | nil =>
    simp only [jsIncludes, listPrefix_iff]
    constructor
    · rintro ⟨r, hr⟩; exact ⟨[], r, by simpa using hr⟩
    · rintro ⟨l, r, hr⟩
      have h2 : l ++ (n ++ r) = [] := by simpa using hr.symm
      rcases List.append_eq_nil.mp h2 with ⟨rfl, h3⟩
      rcases List.append_eq_nil.mp h3 with ⟨rfl, rfl⟩
      exact ⟨[], rfl⟩
  | cons c t ih =>
    simp only [jsIncludes, Bool.or_eq_true, listPrefix_iff, ih]
    constructor
    · rintro (⟨r, hr⟩ | ⟨l, r, rfl⟩)
      · exact ⟨[], r, by simpa using hr⟩
      · exact ⟨c :: l, r, by simp⟩
    · rintro ⟨l, r, hr⟩
      cases l with
      | nil => exact Or.inl ⟨r, by simpa using hr⟩
      | cons x xs =>
        simp only [List.cons_append, List.cons.injEq] at hr
        exact Or.inr ⟨xs, r, hr.2⟩


/-! ## Properties of the stable severity sort -/

theorem insertBySeverity_perm (x : Suggestion) (l : List Suggestion) :
    List.Perm (insertBySeverity x l) (x :: l) := by
  induction l with
  | nil => simp [insertBySeverity]
  | cons y ys ih =>
    simp only [insertBySeverity]
    split
    · exact List.Perm.refl _
    · exact (ih.cons y).trans (List.Perm.swap x y ys)

theorem sortSuggestions_perm (l : List Suggestion) :
    List.Perm (sortSuggestions l) l := by
  induction l with
  | nil => simp [sortSuggestions]
  | cons x xs ih =>
    exact (insertBySeverity_perm x (sortSuggestions xs)).trans (ih.cons x)

theorem insertBySeverity_sorted (x : Suggestion) {l : List Suggestion}
    (h : List.Sorted severityGE l) :
    List.Sorted severityGE (insertBySeverity x l) := by
  induction l with
  | nil => simp [insertBySeverity, List.sorted_singleton]
  | cons y ys ih =>
    rw [List.sorted_cons] at h
    simp only [insertBySeverity]
    split
    · rename_i hc
      rw [List.sorted_cons]
      refine ⟨?_, List.sorted_cons.mpr h⟩
      intro b hb
      rcases List.mem_cons.mp hb with rfl | hb
      · exact hc
      · exact le_trans (h.1 b hb) hc
    · rename_i hc
      rw [List.sorted_cons]
      refine ⟨?_, ih h.2⟩
      intro b hb
      have hb' := (insertBySeverity_perm x ys).mem_iff.mp hb
      rcases List.mem_cons.mp hb' with rfl | hb'
      · exact Nat.le_of_not_le hc
      · exact h.1 b hb'

theorem sortSuggestions_sorted (l : List Suggestion) :
    List.Sorted severityGE (sortSuggestions l) := by
  induction l with
  | nil => simp [sortSuggestions]
  | cons x xs ih => exact insertBySeverity_sorted x ih

theorem filter_insertBySeverity (sv : Severity) (x : Suggestion) (l : List Suggestion) :
    (insertBySeverity x l).filter (fun s => s.severity == sv) =
      if x.severity = sv then x :: l.filter (fun s => s.severity == sv)
      else l.filter (fun s => s.severity == sv) := by
  induction l with
  | nil =>
    by_cases hx : x.severity = sv <;> simp [insertBySeverity, List.filter_cons, hx]
  | cons y ys ih =>
    simp only [insertBySeverity]
    by_cases hc : severityScore y.severity ≤ severityScore x.severity
    · rw [if_pos hc]
      by_cases hx : x.severity = sv <;> simp [List.filter_cons, hx]
    · rw [if_neg hc]
      by_cases hx : x.severity = sv
      · by_cases hy : y.severity = sv
        · exact absurd (le_of_eq (congrArg severityScore (hy.trans hx.symm))) hc
        · simp [List.filter_cons, hx, hy, ih]
      · by_cases hy : y.severity = sv <;> simp [List.filter_cons, hx, hy, ih]

theorem sortSuggestions_filter (l : List Suggestion) (sv : Severity) :
    (sortSuggestions l).filter (fun s => s.severity == sv) =
      l.filter (fun s => s.severity == sv) := by
  induction l with
  | nil => simp [sortSuggestions]
  | cons x xs ih =>
    simp only [sortSuggestions, filter_insertBySeverity, List.filter_cons, ih]
    by_cases hx : x.severity = sv <;> simp [hx]

/-- C5: the report's suggestion list is the accumulated findings sorted
descending by severity weight with a stable sort: it is a permutation
of the accumulated list, sorted under the weight order high=3, medium=2,
low=1, and equal-severity findings keep their relative insertion order
(the per-severity sublists are unchanged); on the insertion order
[low, high, medium, high] the output is [high, high, medium, low] with
the two distinct high findings in their original relative order. -/
theorem severity_sort_stable_c5 :
    (∀ cs : ChangeSet, (reviewPullRequest cs).suggestions =
      sortSuggestions (rawSuggestions cs.changeEntries cs.changeEntries)) ∧
    (∀ l : List Suggestion, List.Perm (sortSuggestions l) l) ∧
    (∀ l : List Suggestion, List.Sorted severityGE (sortSuggestions l)) ∧
    (∀ (l : List Suggestion) (sv : Severity),
      (sortSuggestions l).filter (fun s => s.severity == sv) =
        l.filter (fun s => s.severity == sv)) ∧
    sortSuggestions [exLow, exHigh1, exMed, exHigh2] = [exHigh1, exHigh2, exMed, exLow] := by
  refine ⟨fun cs => rfl, sortSuggestions_perm, sortSuggestions_sorted,
    sortSuggestions_filter, ?_⟩
  decide

/-! ## Statistics accumulation and error isolation -/

theorem foldl_additions (allE entries : List FileChange) (st : AccState) :
    (entries.foldl (processEntry allE) st).additions =
      st.additions + ((analyzedEntries entries).map (fun d => entryAddition d.1)).sum := by
  induction entries generalizing st with
  | nil => simp [analyzedEntries]
  | cons e es ih =>
    simp only [List.foldl_cons, ih, analyzedEntries, List.filterMap_cons]
    by_cases hp : e.path.isEmpty
    · simp [processEntry, hp, analyzedEntries]
    · cases hf : e.fetch with
      | error u => simp [processEntry, hp, hf, analyzedEntries]
      | ok d =>
        cases d with
        | mk content oldContent =>
          simp [processEntry, hp, hf, analyzedEntries, Nat.add_assoc]

theorem foldl_deletions (allE entries : List FileChange) (st : AccState) :
    (entries.foldl (processEntry allE) st).deletions =
      st.deletions + ((analyzedEntries entries).map (fun d => entryDeletion d.1 d.2)).sum := by
  induction entries generalizing st with
  | nil => simp [analyzedEntries]
  | cons e es ih =>
    simp only [List.foldl_cons, ih, analyzedEntries, List.filterMap_cons]
    by_cases hp : e.path.isEmpty
    · simp [processEntry, hp, analyzedEntries]
    · cases hf : e.fetch with
      | error u => simp [processEntry, hp, hf, analyzedEntries]
      | ok d =>
        cases d with
        | mk content oldContent =>
          simp [processEntry, hp, hf, analyzedEntries, Nat.add_assoc]

/-- C6: per report, `additions` is the sum over analyzed files of the
new content's line count, `deletions` is the sum over analyzed files of
`max(0, oldLineCount - newLineCount)` when prior content is available
and `0` otherwise, and `totalChanges` is always their sum. -/
theorem statistics_sums_c6 (cs : ChangeSet) :
    (reviewPullRequest cs).statistics.additions =
      ((analyzedData cs).map (fun d => (splitNl d.1).length)).sum ∧
    (reviewPullRequest cs).statistics.deletions =
      ((analyzedData cs).map (fun d =>
        match d.2 with
        | some o =>
          Int.toNat (max 0 (((splitNl o).length : Int) - ((splitNl d.1).length : Int)))
        | none => 0)).sum ∧
    (reviewPullRequest cs).statistics.totalChanges =
      (reviewPullRequest cs).statistics.additions +
        (reviewPullRequest cs).statistics.deletions := by
  refine ⟨?_, ?_, rfl⟩
  · have h := foldl_additions cs.changeEntries cs.changeEntries initAccState
    simpa [reviewPullRequest, reviewPullRequestAux, analysisState, analyzedData,
      initAccState, entryAddition] using h
  · have h := foldl_deletions cs.changeEntries cs.changeEntries initAccState
    simpa [reviewPullRequest, reviewPullRequestAux, analysisState, analyzedData,
      initAccState, entryDeletion] using h

theorem processEntry_error (allE : List FileChange) (st : AccState) (e : FileChange)
    (h : e.fetch = Except.error ()) : processEntry allE st e = st := by
  by_cases hp : e.path.isEmpty <;> simp [processEntry, hp, h]

theorem analysisState_skip_error (allE pre post : List FileChange) (bad : FileChange)
    (h : bad.fetch = Except.error ()) :
    analysisState (pre ++ bad :: post) allE = analysisState (pre ++ post) allE := by
  unfold analysisState
  rw [List.foldl_append, List.foldl_append, List.foldl_cons,
    processEntry_error allE _ bad h]

/-- C9: a change entry whose per-file analysis throws contributes
nothing: the returned report is the complete report obtained by folding
over the remaining entries only (so all other files' findings and
statistics are untouched), while `filesChanged` still counts every
entry; in particular the run is a total function and is not aborted by
the failing file. -/
theorem error_isolated_c9 (cs : ChangeSet) (pre post : List FileChange) (bad : FileChange)
    (hE : cs.changeEntries = pre ++ bad :: post) (hbad : bad.fetch = Except.error ()) :
    reviewPullRequest cs = reviewPullRequestAux (pre ++ post) cs ∧
    (reviewPullRequest cs).statistics.filesChanged = cs.changeEntries.length := by
  constructor
  · unfold reviewPullRequest
    rw [hE]
    unfold reviewPullRequestAux rawSuggestions
    rw [analysisState_skip_error _ _ _ _ hbad]
  · rfl

/-- Witness for C9 at a concrete two-entry change-set whose second
entry throws. -/
theorem error_isolated_c9_witness :
    csErr.changeEntries =
      [⟨"good.ts".toList, Except.ok ("let value = 1;".toList, none)⟩] ++
        ⟨"bad.ts".toList, Except.error ()⟩ :: [] ∧
    reviewPullRequest csErr = reviewPullRequestAux
      ([⟨"good.ts".toList, Except.ok ("let value = 1;".toList, none)⟩] ++ []) csErr :=
  ⟨rfl, (error_isolated_c9 csErr
    [⟨"good.ts".toList, Except.ok ("let value = 1;".toList, none)⟩] []
    ⟨"bad.ts".toList, Except.error ()⟩ rfl rfl).1⟩

/-! ## Best-practice verdict properties -/

/-- C8: in every report, `testCoverage` is false exactly when some
finding in the report's suggestion list has a message containing the
no-corresponding-test marker — the verdict is the negation of the
marker search over the same list, so the two can never disagree. -/
theorem test_coverage_consistency_c8 (cs : ChangeSet) :
    (reviewPullRequest cs).bestPractices.testCoverage = false ↔
      ∃ s ∈ (reviewPullRequest cs).suggestions,
        ∃ l r, s.message = l ++ "No corresponding test".toList ++ r := by
  show (!(sortSuggestions (rawSuggestions cs.changeEntries cs.changeEntries)).any fun s =>
      jsIncludes "No corresponding test".toList s.message) = false ↔ _
  rw [Bool.not_eq_false']
  rw [List.any_eq_true]
  constructor
  · rintro ⟨s, hs, hinc⟩
    exact ⟨s, hs, (jsIncludes_iff _ _).mp hinc⟩
  · rintro ⟨s, hs, hinc⟩
    exact ⟨s, hs, (jsIncludes_iff _ _).mpr hinc⟩

/-- Witness for C8: at the `.tsx` change-set the verdict is false and
the theorem produces the marker-carrying finding. -/
theorem test_coverage_consistency_c8_witness :
    ∃ s ∈ (reviewPullRequest csTsx).suggestions,
      ∃ l r, s.message = l ++ "No corresponding test".toList ++ r :=
  (test_coverage_consistency_c8 csTsx).mp (by decide)

/-- C10: a change-set with no commits gets a vacuously true
`commitMessages` verdict (`Array.prototype.every` on an empty array). -/
theorem empty_commits_c10 (cs : ChangeSet) (h : cs.commits = []) :
    (reviewPullRequest cs).bestPractices.commitMessages = true := by
  show analyzeCommitMessages cs.commits = true
  rw [h]
  rfl

/-- Witness for C10 at a concrete commitless change-set. -/
theorem empty_commits_c10_witness :
    csNoCommits.commits = [] ∧
      (reviewPullRequest csNoCommits).bestPractices.commitMessages = true :=
  ⟨rfl, empty_commits_c10 csNoCommits rfl⟩

set_option maxRecDepth 10000 in
/-- C2 (code bug): for the change-set with one added 301-line `.ts`
file under `src/` and no test file, the code returns a report with NO
suggestions at all — no medium "file is too large" finding (that check
exists only in the superseded first revision of the module) and no high
"no corresponding test" finding — and `testCoverage = true`: the lookup
`filePath.replace('.tsx', '.test.tsx')` leaves a plain `.ts` path
unchanged, so the file's own change entry always counts as its
corresponding test.  Only `filesChanged = 1` holds as claimed. -/
theorem large_added_file_c2 :
    (reviewPullRequest csC2).statistics.filesChanged = 1 ∧
    (reviewPullRequest csC2).suggestions = [] ∧
    (reviewPullRequest csC2).bestPractices.testCoverage = true ∧
    hasCorrespondingTest csC2.changeEntries "src/newFeature.ts".toList = true ∧
    jsReplaceFirst "src/newFeature.ts".toList ".tsx".toList ".test.tsx".toList =
      "src/newFeature.ts".toList := by
  refine ⟨rfl, by decide, by decide, by decide, by decide⟩

/-! ## Moved-block detection -/

/-- C1 counterexample: identical old and new content (twenty distinct
one-character lines) is a pair with no relocated block, yet
`findMovedBlocks` returns 2, not 0 — the comparison mixes the character
offset of the window in the joined new content with its old line index,
so at line index 6 the window found at character offset 12 already
counts as "moved". -/
theorem moved_blocks_c1_counterexample :
    findMovedBlocks lettersLines lettersLines = 2 ∧
      findMovedBlocks lettersLines lettersLines ≠ 0 := ⟨by decide, by decide⟩

theorem fmbGo_zero (oldLines : List (List Char)) (joined : List Char) (bound : Nat)
    (h : ∀ i, i < bound →
      Option.all
        (fun newIndex : Nat => decide (Int.natAbs ((newIndex : Int) - (i : Int)) ≤ minBlockSize))
        (jsIndexOf (joinNl ((oldLines.drop i).take minBlockSize)) joined) = true) :
    ∀ fuel i, fmbGo oldLines joined bound fuel i = 0 := by
  intro fuel
  induction fuel with
  | zero => intro i; rfl
  | succ k ih =>
    intro i
    by_cases hib : i < bound
    · rw [fmbGo, if_pos hib]
      have hcond := h i hib
      split
      · rename_i newIndex hidx
        rw [hidx] at hcond
        simp only [Option.all_some, decide_eq_true_eq] at hcond
        rw [if_neg (by omega)]
        exact ih (i + 1)
      · exact ih (i + 1)
    · rw [fmbGo, if_neg hib]

/-- C1 (amended): `findMovedBlocks` returns 1 on a 20-line old content
whose five-line block is relocated to lines 10-14 of the new content
(character offset 30, which differs from the old line index 0 by more
than the block size) while the remaining old lines disappear; and it
returns 0 for every old/new pair in which no 5-line window of the old
content occurs in the joined new content at a character offset that
differs from the window's old line index by more than 5.  (Identical
old and new content does not generally satisfy that condition — see the
counterexample — because the found position is a character offset, not
a line index.)  A counted match advances the scan index past the block:
the recursion continues at `i + minBlockSize`. -/
theorem moved_blocks_c1 :
    findMovedBlocks movedOld movedNew = 1 ∧
    (∀ oldLines newLines : List (List Char),
      (∀ i, i < oldLines.length - minBlockSize →
        Option.all
          (fun newIndex : Nat =>
            decide (Int.natAbs ((newIndex : Int) - (i : Int)) ≤ minBlockSize))
          (jsIndexOf (joinNl ((oldLines.drop i).take minBlockSize))
            (joinNl newLines)) = true) →
      findMovedBlocks oldLines newLines = 0) := by
  constructor
  · decide
  · intro oldLines newLines h
    exact fmbGo_zero oldLines (joinNl newLines) (oldLines.length - minBlockSize) h
      (oldLines.length - minBlockSize) 0

/-- Witness for C1's zero case: a six-line old content none of whose
windows occurs in the empty new content. -/
theorem moved_blocks_c1_witness :
    findMovedBlocks
      ["a".toList, "b".toList, "c".toList, "d".toList, "e".toList, "f".toList] [] = 0 :=
  moved_blocks_c1.2 _ [] (by decide)

/-! ## Conventional-commit matcher correctness -/

theorem specCommitTail_iff (rest : List Char) :
    SpecCommitTail rest ↔ ∃ c rest2, rest = c :: rest2 ∧ dotChar c = true := by
  constructor
  · rintro ⟨k, hk1, hk50, taken, rest2, rfl, hlen, hall⟩
    cases taken with
    | nil => simp at hlen; omega
    | cons c ts =>
      exact ⟨c, ts ++ rest2, by simp, hall c (List.mem_cons_self c ts)⟩
  · rintro ⟨c, rest2, rfl, hc⟩
    exact ⟨1, le_rfl, by omega, [c], rest2, rfl, rfl, by simpa using hc⟩

theorem colonSpaceRest_iff (r : List Char) :
    colonSpaceRest r = true ↔
      ∃ c rest2, r = ':' :: ' ' :: c :: rest2 ∧ dotChar c = true := by
  rcases r with _ | ⟨c1, _ | ⟨c2, _ | ⟨c3, t⟩⟩⟩
  · simp [colonSpaceRest]
  · simp [colonSpaceRest]
  · simp [colonSpaceRest]
  · simp only [colonSpaceRest, Bool.and_eq_true, beq_iff_eq]
    constructor
    · rintro ⟨⟨rfl, rfl⟩, hd⟩
      exact ⟨c3, t, rfl, hd⟩
    · rintro ⟨c, rest2, heq, hd⟩
      simp only [List.cons.injEq] at heq
      obtain ⟨rfl, rfl, rfl, rfl⟩ := heq
      exact ⟨⟨rfl, rfl⟩, hd⟩

theorem colonSpaceRest_iff_tail (r : List Char) :
    colonSpaceRest r = true ↔
      ∃ rest, r = ':' :: ' ' :: rest ∧ SpecCommitTail rest := by
  rw [colonSpaceRest_iff]
  constructor
  · rintro ⟨c, rest2, rfl, hd⟩
    exact ⟨c :: rest2, rfl, (specCommitTail_iff _).mpr ⟨c, rest2, rfl, hd⟩⟩
  · rintro ⟨rest, rfl, htail⟩
    obtain ⟨c, rest2, rfl, hd⟩ := (specCommitTail_iff _).mp htail
    exact ⟨c, rest2, rfl, hd⟩

theorem scopeAfterOne_iff (s : List Char) :
    scopeAfterOne s = true ↔
      ∃ pre r, s = pre ++ ')' :: r ∧ (∀ c ∈ pre, dotChar c = true) ∧
        colonSpaceRest r = true := by
  induction s with
  | nil =>
    simp only [scopeAfterOne]
    constructor
    · intro h; exact absurd h (by simp)
    · rintro ⟨pre, r, hpre, -, -⟩
      exact absurd hpre (by simp)
  | cons c t ih =>
    simp only [scopeAfterOne, Bool.or_eq_true, Bool.and_eq_true, beq_iff_eq, ih]
    constructor
    · rintro (⟨rfl, hc⟩ | ⟨hdot, pre, r, rfl, hall, hcsr⟩)
      · exact ⟨[], t, rfl, by simp, hc⟩
      · refine ⟨c :: pre, r, rfl, ?_, hcsr⟩
        intro x hx
        rcases List.mem_cons.mp hx with rfl | hx
        · exact hdot
        · exact hall x hx
    · rintro ⟨pre, r, hpre, hall, hcsr⟩
      cases pre with
      | nil =>
        simp only [List.nil_append, List.cons.injEq] at hpre
        obtain ⟨rfl, rfl⟩ := hpre
        exact Or.inl ⟨rfl, hcsr⟩
      | cons p pre' =>
        simp only [List.cons_append, List.cons.injEq] at hpre
        obtain ⟨hcp, rfl⟩ := hpre
        subst hcp
        refine Or.inr ⟨hall _ (List.mem_cons_self _ pre'), pre', r, rfl, ?_, hcsr⟩
        intro x hx
        exact hall x (List.mem_cons_of_mem _ hx)

theorem convAfterType_iff (r : List Char) :
    convAfterType r = true ↔
      ((∃ rest, r = ':' :: ' ' :: rest ∧ SpecCommitTail rest) ∨
       (∃ scope rest, scope ≠ [] ∧ (∀ c ∈ scope, dotChar c = true) ∧
         r = '(' :: (scope ++ ')' :: ':' :: ' ' :: rest) ∧ SpecCommitTail rest)) := by
  unfold convAfterType
  rw [Bool.or_eq_true]
  constructor
  · rintro (h | h)
    · exact Or.inl ((colonSpaceRest_iff_tail r).mp h)
    · rcases r with _ | ⟨a, _ | ⟨b, r2⟩⟩
      · exact absurd h (by simp)
      · exact absurd h (by simp)
      · simp only [Bool.and_eq_true, beq_iff_eq] at h
        obtain ⟨⟨rfl, hb⟩, hscope⟩ := h
        obtain ⟨pre, rr, rfl, hall, hcsr⟩ := (scopeAfterOne_iff r2).mp hscope
        obtain ⟨rest, rfl, htail⟩ := (colonSpaceRest_iff_tail rr).mp hcsr
        refine Or.inr ⟨b :: pre, rest, by simp, ?_, by simp, htail⟩
        intro c hc
        rcases List.mem_cons.mp hc with rfl | hc
        · exact hb
        · exact hall c hc
  · rintro (⟨rest, rfl, htail⟩ | ⟨scope, rest, hne, hall, rfl, htail⟩)
    · exact Or.inl ((colonSpaceRest_iff_tail _).mpr ⟨rest, rfl, htail⟩)
    · refine Or.inr ?_
      cases scope with
      | nil => exact absurd rfl hne
      | cons b pre =>
        show ('(' == '(' && dotChar b &&
          scopeAfterOne (pre ++ ')' :: ':' :: ' ' :: rest)) = true
        rw [Bool.and_eq_true, Bool.and_eq_true]
        refine ⟨⟨by decide, hall b (List.mem_cons_self b pre)⟩, ?_⟩
        refine (scopeAfterOne_iff _).mpr ⟨pre, ':' :: ' ' :: rest, rfl, ?_, ?_⟩
        · intro x hx
          exact hall x (List.mem_cons_of_mem b hx)
        · exact (colonSpaceRest_iff_tail _).mpr ⟨rest, rfl, htail⟩

theorem conventionalTest_iff (msg : List Char) :
    conventionalTest msg = true ↔ SpecConventional msg := by
  unfold conventionalTest SpecConventional
  rw [List.any_eq_true]
  constructor
  · rintro ⟨t, ht, hb⟩
    simp only [Bool.and_eq_true] at hb
    obtain ⟨hpre, hafter⟩ := hb
    obtain ⟨r, rfl⟩ := (listPrefix_iff _ _).mp hpre
    rw [List.drop_left] at hafter
    rcases (convAfterType_iff r).mp hafter with
      ⟨rest, rfl, htail⟩ | ⟨scope, rest, hne, hall, rfl, htail⟩
    · exact ⟨t, ht, Or.inl ⟨rest, rfl, htail⟩⟩
    · exact ⟨t, ht, Or.inr ⟨scope, rest, hne, hall, rfl, htail⟩⟩
  · rintro ⟨t, ht, hcase⟩
    refine ⟨t, ht, ?_⟩
    simp only [Bool.and_eq_true]
    rcases hcase with ⟨rest, rfl, htail⟩ | ⟨scope, rest, hne, hall, rfl, htail⟩
    · refine ⟨(listPrefix_iff _ _).mpr ⟨_, rfl⟩, ?_⟩
      rw [List.drop_left]
      exact (convAfterType_iff _).mpr (Or.inl ⟨rest, rfl, htail⟩)
    · refine ⟨(listPrefix_iff _ _).mpr ⟨_, rfl⟩, ?_⟩
      rw [List.drop_left]
      exact (convAfterType_iff _).mpr (Or.inr ⟨scope, rest, hne, hall, rfl, htail⟩)

theorem wip_iff (msg : List Char) :
    jsIncludes "wip".toList (msg.map toLowerChar) = true ↔ SpecContainsWip msg := by
  rw [jsIncludes_iff]
  unfold SpecContainsWip
  constructor
  · rintro ⟨l, r, hmap⟩
    obtain ⟨ln, r', rfl, hln, hr⟩ := List.map_eq_append_iff.mp hmap
    obtain ⟨l', mid, rfl, hl, hmid⟩ := List.map_eq_append_iff.mp hln
    exact ⟨l', mid, r', rfl, hmid⟩
  · rintro ⟨l, w, r, rfl, hw⟩
    exact ⟨l.map toLowerChar, r.map toLowerChar, by simp [hw]⟩

theorem goodCommit_iff (m : List Char) :
    (conventionalTest m &&
      (decide (10 ≤ m.length) && !jsIncludes "wip".toList (m.map toLowerChar))) = true ↔
      SpecGoodCommit m := by
  constructor
  · intro hb
    simp only [Bool.and_eq_true, Bool.not_eq_true', decide_eq_true_eq] at hb
    obtain ⟨hconv, hlen, hwip⟩ := hb
    refine ⟨(conventionalTest_iff m).mp hconv, hlen, fun hsw => ?_⟩
    have := (wip_iff m).mpr hsw
    rw [hwip] at this
    exact absurd this (by decide)
  · rintro ⟨hconv, hlen, hnw⟩
    simp only [Bool.and_eq_true, Bool.not_eq_true', decide_eq_true_eq]
    refine ⟨(conventionalTest_iff m).mpr hconv, hlen, ?_⟩
    cases hjs : jsIncludes "wip".toList (m.map toLowerChar)
    · rfl
    · exact absurd ((wip_iff m).mp hjs) hnw

/-- C3: the commitMessages verdict holds exactly when every commit
message (its absent comment read as the empty string) matches the
conventional-commit pattern — a type from feat|fix|docs|style|
refactor|test|chore, an optional parenthesized nonempty scope, then
": " and 1-50 further characters — AND is at least 10 characters long
AND does not contain the substring "wip" in any letter case; hence a
single failing commit makes the verdict false for the change-set. -/
theorem commit_messages_c3 :
    (∀ cs : ChangeSet, (reviewPullRequest cs).bestPractices.commitMessages =
      analyzeCommitMessages cs.commits) ∧
    (∀ commits : List (Option (List Char)),
      analyzeCommitMessages commits = true ↔
        ∀ commit ∈ commits, SpecGoodCommit (commit.getD [])) := by
  refine ⟨fun cs => rfl, fun commits => ?_⟩
  unfold analyzeCommitMessages
  rw [List.all_eq_true]
  constructor
  · intro hall commit hc
    exact (goodCommit_iff _).mp (hall commit hc)
  · intro hall commit hc
    exact (goodCommit_iff _).mpr (hall commit hc)

/-- Witness for C3: the theorem instantiated at a concrete passing
commit list yields the spec-side property of its message. -/
theorem commit_messages_c3_witness :
    SpecGoodCommit ((some "feat: add login page".toList).getD []) :=
  (commit_messages_c3.2 [some "feat: add login page".toList]).mp (by decide)
    (some "feat: add login page".toList) (List.mem_singleton_self _)

/-! ## Branch-name matcher correctness -/

theorem branchPatternTest_iff (s : List Char) :
    branchPatternTest s = true ↔ SpecBranchName s := by
  unfold branchPatternTest SpecBranchName
  rw [List.any_eq_true]
  constructor
  · rintro ⟨t, ht, hb⟩
    simp only [Bool.and_eq_true] at hb
    obtain ⟨hpre, hd⟩ := hb
    obtain ⟨d, hs⟩ := (listPrefix_iff _ _).mp hpre
    have hdrop : s.drop (t.length + 1) = d := by
      rw [hs]
      have hlen : (t ++ ['/']).length = t.length + 1 := by simp
      rw [← hlen, List.drop_left]
    rw [hdrop] at hd
    simp only [Bool.and_eq_true, Bool.not_eq_true', List.all_eq_true] at hd
    obtain ⟨hne, hall⟩ := hd
    refine ⟨t, ht, d, by simpa using hs, ?_, hall⟩
    intro hnil
    rw [hnil] at hne
    exact absurd hne (by decide)
  · rintro ⟨t, ht, d, rfl, hne, hall⟩
    refine ⟨t, ht, ?_⟩
    simp only [Bool.and_eq_true]
    constructor
    · exact (listPrefix_iff _ _).mpr ⟨d, by simp⟩
    · have hdrop : (t ++ '/' :: d).drop (t.length + 1) = d := by
        have hlen : (t ++ ['/']).length = t.length + 1 := by simp
        rw [show t ++ '/' :: d = (t ++ ['/']) ++ d by simp, ← hlen, List.drop_left]
      rw [hdrop]
      simp only [Bool.and_eq_true, Bool.not_eq_true', List.all_eq_true]
      refine ⟨?_, hall⟩
      cases d with
      | nil => exact absurd rfl hne
      | cons a l => rfl

/-- C4 (amended): the branchNaming verdict is computed on
`sourceRefName` with the FIRST occurrence of "refs/heads/" anywhere in
the name removed (JS `replace` semantics, not only a leading prefix),
and it holds exactly when that name is `type/description` with type ∈
{feature, bugfix, hotfix, release} and a nonempty description of
lowercase letters, digits and hyphens; `feature/add-login` passes while
`my-branch` and `Feature/Add-Login` fail (case-sensitively). -/
theorem branch_naming_c4 :
    (∀ cs : ChangeSet, (reviewPullRequest cs).bestPractices.branchNaming =
      (analyzeBranchNaming
        (jsReplaceFirst cs.sourceRefName "refs/heads/".toList [])).isValid) ∧
    (∀ s : List Char, (analyzeBranchNaming s).isValid = true ↔ SpecBranchName s) ∧
    (analyzeBranchNaming "feature/add-login".toList).isValid = true ∧
    (analyzeBranchNaming "my-branch".toList).isValid = false ∧
    (analyzeBranchNaming "Feature/Add-Login".toList).isValid = false := by
  exact ⟨fun cs => rfl, fun s => branchPatternTest_iff s, by decide, by decide, by decide⟩

/-- C4 counterexample: `feature/refs/heads/a` has no leading
`refs/heads/` prefix, so under the claim's reading the name stays
unchanged and fails the pattern (its description part contains slashes)
— yet the code removes the first occurrence of `refs/heads/` anywhere,
obtaining `feature/a`, and returns a true verdict. -/
theorem branch_naming_c4_counterexample :
    (reviewPullRequest csBranch).bestPractices.branchNaming = true ∧
    specStripLeading csBranch.sourceRefName = csBranch.sourceRefName ∧
    branchPatternTest (specStripLeading csBranch.sourceRefName) = false ∧
    jsReplaceFirst csBranch.sourceRefName "refs/heads/".toList [] =
      "feature/a".toList :=
  ⟨by decide, by decide, by decide, by decide⟩

/-- Witness for C4: the amended characterization instantiated at
`feature/add-login`. -/
theorem branch_naming_c4_witness :
    SpecBranchName "feature/add-login".toList :=
  (branch_naming_c4.2.1 "feature/add-login".toList).mp (by decide)

/-! ## Deduplication of change-set-wide findings -/

theorem addIssue_mem {s : List (List Char)} {m x : List Char} :
    x ∈ addIssue s m ↔ x ∈ s ∨ x = m := by
  unfold addIssue
  split
  · rename_i hm
    constructor
    · exact Or.inl
    · rintro (h | rfl)
      · exact h
      · exact hm
  · simp [List.mem_append]

theorem addIssue_nodup {s : List (List Char)} {m : List Char} (h : s.Nodup) :
    (addIssue s m).Nodup := by
  unfold addIssue
  split
  · exact h
  · rename_i hm
    rw [List.nodup_append]
    refine ⟨h, List.nodup_singleton m, ?_⟩
    intro x hx hx'
    rw [List.mem_singleton] at hx'
    exact hm (hx' ▸ hx)

theorem ite_addIssue_mem {c : Prop} [Decidable c] {s : List (List Char)} {m x : List Char}
    (hx : x ∈ if c then addIssue s m else s) : x ∈ s ∨ x = m := by
  revert hx
  split
  · exact fun hx => addIssue_mem.mp hx
  · exact Or.inl

theorem ite_addIssue_nodup {c : Prop} [Decidable c] {s : List (List Char)} {m : List Char}
    (h : s.Nodup) : (if c then addIssue s m else s).Nodup := by
  split
  · exact addIssue_nodup h
  · exact h

theorem envFold_mem (evs : List (List Char)) (s0 : List (List Char)) (x : List Char)
    (hx : x ∈ evs.foldl (fun acc envVar =>
      if jsIncludes "KEY".toList envVar || jsIncludes "SECRET".toList envVar ||
          jsIncludes "PASSWORD".toList envVar then
        addIssue acc (sensitiveMsg envVar)
      else acc) s0) :
    x ∈ s0 ∨ ∃ v, x = sensitiveMsg v := by
  induction evs generalizing s0 with
  | nil => exact Or.inl hx
  | cons e es ih =>
    simp only [List.foldl_cons] at hx
    rcases ih _ hx with h | h
    · rcases ite_addIssue_mem h with h | rfl
      · exact Or.inl h
      · exact Or.inr ⟨e, rfl⟩
    · exact Or.inr h

theorem envFold_nodup (evs : List (List Char)) (s0 : List (List Char)) (h : s0.Nodup) :
    (evs.foldl (fun acc envVar =>
      if jsIncludes "KEY".toList envVar || jsIncludes "SECRET".toList envVar ||
          jsIncludes "PASSWORD".toList envVar then
        addIssue acc (sensitiveMsg envVar)
      else acc) s0).Nodup := by
  induction evs generalizing s0 with
  | nil => exact h
  | cons e es ih =>
    simp only [List.foldl_cons]
    exact ih _ (ite_addIssue_nodup h)

theorem checkSecurityIssues_mem {content : List Char} {s : List (List Char)} {x : List Char}
    (hx : x ∈ checkSecurityIssues content s) : x ∈ s ∨ SecShape x := by
  unfold checkSecurityIssues at hx
  rcases envFold_mem _ _ _ hx with h | ⟨v, rfl⟩
  · rcases ite_addIssue_mem h with h | rfl
    · rcases ite_addIssue_mem h with h | rfl
      · exact Or.inl h
      · exact Or.inr (Or.inl rfl)
    · exact Or.inr (Or.inr (Or.inl rfl))
  · exact Or.inr (Or.inr (Or.inr ⟨v, rfl⟩))

theorem checkSecurityIssues_nodup {content : List Char} {s : List (List Char)}
    (h : s.Nodup) : (checkSecurityIssues content s).Nodup := by
  unfold checkSecurityIssues
  exact envFold_nodup _ _ (ite_addIssue_nodup (ite_addIssue_nodup h))

theorem checkPerformanceIssues_mem {content : List Char} {s : List (List Char)}
    {x : List Char} (hx : x ∈ checkPerformanceIssues content s) : x ∈ s ∨ PerfShape x := by
  unfold checkPerformanceIssues at hx
  rcases ite_addIssue_mem hx with h | rfl
  · rcases ite_addIssue_mem h with h | rfl
    · rcases ite_addIssue_mem h with h | rfl
      · exact Or.inl h
      · exact Or.inr (Or.inl rfl)
    · exact Or.inr (Or.inr (Or.inl rfl))
  · exact Or.inr (Or.inr (Or.inr rfl))

theorem checkPerformanceIssues_nodup {content : List Char} {s : List (List Char)}
    (h : s.Nodup) : (checkPerformanceIssues content s).Nodup := by
  unfold checkPerformanceIssues
  exact ite_addIssue_nodup (ite_addIssue_nodup (ite_addIssue_nodup h))

theorem processEntry_sets_inv (allE : List FileChange) (st : AccState) (e : FileChange)
    (h1 : ∀ x ∈ st.securityIssues, SecShape x) (h2 : st.securityIssues.Nodup)
    (h3 : ∀ x ∈ st.performanceIssues, PerfShape x) (h4 : st.performanceIssues.Nodup) :
    (∀ x ∈ (processEntry allE st e).securityIssues, SecShape x) ∧
    (processEntry allE st e).securityIssues.Nodup ∧
    (∀ x ∈ (processEntry allE st e).performanceIssues, PerfShape x) ∧
    (processEntry allE st e).performanceIssues.Nodup := by
  by_cases hp : e.path.isEmpty
  · simp only [processEntry, hp, if_true]
    exact ⟨h1, h2, h3, h4⟩
  · cases hf : e.fetch with
    | error u =>
      simp [processEntry, hp, hf]
      exact ⟨h1, h2, h3, h4⟩
    | ok d =>
      obtain ⟨content, oldContent⟩ := d
      simp only [processEntry, hp, hf]
      by_cases ht : tsOrTsx e.path
      · simp only [ht, if_pos, if_true]
        refine ⟨?_, checkSecurityIssues_nodup h2, ?_, checkPerformanceIssues_nodup h4⟩
        · intro x hx
          rcases checkSecurityIssues_mem hx with hx | hx
          · exact h1 x hx
          · exact hx
        · intro x hx
          rcases checkPerformanceIssues_mem hx with hx | hx
          · exact h3 x hx
          · exact hx
      · simp only [ht, if_neg, if_false]
        exact ⟨h1, h2, h3, h4⟩

theorem foldl_sets_inv (allE entries : List FileChange) (st : AccState)
    (h1 : ∀ x ∈ st.securityIssues, SecShape x) (h2 : st.securityIssues.Nodup)
    (h3 : ∀ x ∈ st.performanceIssues, PerfShape x) (h4 : st.performanceIssues.Nodup) :
    (∀ x ∈ (entries.foldl (processEntry allE) st).securityIssues, SecShape x) ∧
    (entries.foldl (processEntry allE) st).securityIssues.Nodup ∧
    (∀ x ∈ (entries.foldl (processEntry allE) st).performanceIssues, PerfShape x) ∧
    (entries.foldl (processEntry allE) st).performanceIssues.Nodup := by
  induction entries generalizing st with
  | nil => exact ⟨h1, h2, h3, h4⟩
  | cons e es ih =>
    simp only [List.foldl_cons]
    obtain ⟨g1, g2, g3, g4⟩ := processEntry_sets_inv allE st e h1 h2 h3 h4
    exact ih _ g1 g2 g3 g4

theorem perFileSuggestions_file (allE : List FileChange) (p content : List Char)
    (oldContent : Option (List Char)) :
    ∀ sug ∈ perFileSuggestions allE p content oldContent, sug.file = p := by
  intro sug hs
  unfold perFileSuggestions coverageSuggestions at hs
  rcases List.mem_append.mp hs with hs | hs
  · revert hs
    split
    · intro hs
      simp only [List.append_assoc, List.mem_append, List.mem_map] at hs
      rcases hs with ⟨i, -, rfl⟩ | ⟨i, -, rfl⟩ | hs | hs
      · rfl
      · rfl
      · revert hs
        split
        · intro hs
          obtain ⟨i, -, rfl⟩ := List.mem_map.mp hs
          rfl
        · intro hs
          exact absurd hs (List.not_mem_nil sug)
      · revert hs
        split
        · split
          · intro hs
            exact absurd hs (List.not_mem_nil sug)
          · intro hs
            obtain ⟨i, -, rfl⟩ := List.mem_map.mp hs
            rfl
        · intro hs
          exact absurd hs (List.not_mem_nil sug)
    · intro hs
      exact absurd hs (List.not_mem_nil sug)
  · revert hs
    split
    · split
      · intro hs
        exact absurd hs (List.not_mem_nil sug)
      · intro hs
        rw [List.mem_singleton] at hs
        rw [hs]
    · intro hs
      exact absurd hs (List.not_mem_nil sug)

theorem perFileSuggestions_multipleFiles (allE : List FileChange) (content : List Char)
    (oldContent : Option (List Char)) :
    perFileSuggestions allE multipleFiles content oldContent = [] := by
  have h1 : tsOrTsx multipleFiles = false := by decide
  simp only [perFileSuggestions, coverageSuggestions, h1, Bool.false_eq_true, if_false,
    List.nil_append]
  split
  · rename_i hcond
    rw [Bool.and_eq_true, Bool.and_eq_true] at hcond
    exact absurd hcond.1.1 (by decide)
  · rfl

theorem foldl_sugg_file (allE entries : List FileChange) (st : AccState)
    (h : ∀ sug ∈ st.suggestions, ¬sug.file = multipleFiles) :
    ∀ sug ∈ (entries.foldl (processEntry allE) st).suggestions,
      ¬sug.file = multipleFiles := by
  induction entries generalizing st with
  | nil => exact h
  | cons e es ih =>
    simp only [List.foldl_cons]
    apply ih
    intro sug hs
    by_cases hp : e.path.isEmpty
    · simp only [processEntry, hp, if_true] at hs
      exact h sug hs
    · cases hf : e.fetch with
      | error u =>
        simp [processEntry, hp, hf] at hs
        exact h sug hs
      | ok d =>
        obtain ⟨content, oldContent⟩ := d
        simp [processEntry, hp, hf] at hs
        rcases hs with hs | hs
        · exact h sug hs
        · have hfile := perFileSuggestions_file allE e.path content oldContent sug hs
          intro hmf
          rw [hfile] at hmf
          rw [hmf, perFileSuggestions_multipleFiles] at hs
          exact absurd hs (List.not_mem_nil sug)

theorem sensitive_no_perf {v p : List Char} (hp : listPrefix sensitivePre p = false)
    (h : sensitivePre ++ v ++ sensitiveSuf = p) : False := by
  have htrue : listPrefix sensitivePre p = true :=
    (listPrefix_iff _ _).mpr ⟨v ++ sensitiveSuf, by rw [← h]; simp⟩
  rw [hp] at htrue
  exact absurd htrue (by decide)

theorem shapes_disjoint {m : List Char} (hsec : SecShape m) (hperf : PerfShape m) :
    False := by
  have hev : ∀ p : List Char, listPrefix sensitivePre p = false →
      ∀ v, ¬(p = sensitivePre ++ v ++ sensitiveSuf) := by
    intro p hp v h
    exact sensitive_no_perf hp h.symm
  rcases hperf with rfl | rfl | rfl
  · rcases hsec with h | h | ⟨v, h⟩
    · exact absurd h (by decide)
    · exact absurd h (by decide)
    · exact hev _ (by decide) v h
  · rcases hsec with h | h | ⟨v, h⟩
    · exact absurd h (by decide)
    · exact absurd h (by decide)
    · exact hev _ (by decide) v h
  · rcases hsec with h | h | ⟨v, h⟩
    · exact absurd h (by decide)
    · exact absurd h (by decide)
    · exact hev _ (by decide) v h

theorem nodup_countP_beq_le_one {l : List (List Char)} (h : l.Nodup) (m : List Char) :
    l.countP (fun x => x == m) ≤ 1 := by
  induction l with
  | nil => simp
  | cons a t ih =>
    rw [List.nodup_cons] at h
    rw [List.countP_cons]
    by_cases ha : a = m
    · have ht : t.countP (fun x => x == m) = 0 := by
        rw [List.countP_eq_zero]
        intro b hb hq
        rw [beq_iff_eq] at hq
        exact h.1 ((ha.trans hq.symm) ▸ hb)
      simp [ht, ha]
    · have hfalse : (a == m) = false := by simp [ha]
      rw [hfalse]
      simpa using ih h.2

set_option maxRecDepth 10000 in
/-- C7: change-set-wide findings are deduplicated by exact message
text: in every report at most one suggestion carries the change-set-wide
file marker "multiple files" together with any given message; and for
the concrete change-set whose two distinct files both reference
`process.env.API_KEY`, exactly one change-set-wide finding with that
sensitive-environment-variable message appears. -/
theorem dedup_c7 :
    (∀ (cs : ChangeSet) (m : List Char),
      (reviewPullRequest cs).suggestions.countP
        (fun s => s.file == multipleFiles && s.message == m) ≤ 1) ∧
    (reviewPullRequest csC7).suggestions.countP
      (fun s => s.file == multipleFiles &&
        s.message == sensitiveMsg "process.env.API_KEY".toList) = 1 := by
  constructor
  · intro cs m
    show (sortSuggestions (rawSuggestions cs.changeEntries cs.changeEntries)).countP
      (fun s => s.file == multipleFiles && s.message == m) ≤ 1
    rw [(sortSuggestions_perm (rawSuggestions cs.changeEntries cs.changeEntries)).countP_eq
      (fun s => s.file == multipleFiles && s.message == m)]
    show ((analysisState cs.changeEntries cs.changeEntries).suggestions ++
      (analysisState cs.changeEntries cs.changeEntries).securityIssues.map
        wideSecuritySuggestion ++
      (analysisState cs.changeEntries cs.changeEntries).performanceIssues.map
        widePerformanceSuggestion).countP
        (fun s => s.file == multipleFiles && s.message == m) ≤ 1
    rw [List.countP_append, List.countP_append, List.countP_map, List.countP_map]
    have hsugg : (analysisState cs.changeEntries cs.changeEntries).suggestions.countP
        (fun s => s.file == multipleFiles && s.message == m) = 0 := by
      rw [List.countP_eq_zero]
      intro a ha
      have hnot := foldl_sugg_file cs.changeEntries cs.changeEntries initAccState
        (fun sug hsg => absurd hsg (List.not_mem_nil sug)) a ha
      simp only [Bool.and_eq_true, beq_iff_eq]
      rintro ⟨hf, -⟩
      exact hnot hf
    rw [hsugg]
    obtain ⟨hshape, hnodup, hpshape, hpnodup⟩ :=
      foldl_sets_inv cs.changeEntries cs.changeEntries initAccState
        (fun x hx => absurd hx (List.not_mem_nil x)) List.nodup_nil
        (fun x hx => absurd hx (List.not_mem_nil x)) List.nodup_nil
    have hcompsec : ((fun s : Suggestion => s.file == multipleFiles && s.message == m) ∘
        wideSecuritySuggestion) = fun issue => issue == m := by
      funext issue
      simp [wideSecuritySuggestion]
    have hcompperf : ((fun s : Suggestion => s.file == multipleFiles && s.message == m) ∘
        widePerformanceSuggestion) = fun issue => issue == m := by
      funext issue
      simp [widePerformanceSuggestion]
    rw [hcompsec, hcompperf]
    by_cases hm : m ∈ (analysisState cs.changeEntries cs.changeEntries).securityIssues
    · have h1 : (analysisState cs.changeEntries cs.changeEntries).securityIssues.countP
          (fun issue => issue == m) ≤ 1 := nodup_countP_beq_le_one hnodup m
      have h2 : (analysisState cs.changeEntries cs.changeEntries).performanceIssues.countP
          (fun issue => issue == m) = 0 := by
        rw [List.countP_eq_zero]
        intro a ha hq
        rw [beq_iff_eq] at hq
        subst hq
        exact shapes_disjoint (hshape a hm) (hpshape a ha)
      omega
    · have h1 : (analysisState cs.changeEntries cs.changeEntries).securityIssues.countP
          (fun issue => issue == m) = 0 := by
        rw [List.countP_eq_zero]
        intro a ha hq
        rw [beq_iff_eq] at hq
        subst hq
        exact hm ha
      have h2 : (analysisState cs.changeEntries cs.changeEntries).performanceIssues.countP
          (fun issue => issue == m) ≤ 1 := nodup_countP_beq_le_one hpnodup m
      omega
  · decide
